import Mathlib

/-!
Verification of the stateful-cached trie resolver
(`trie/resolver_stateful_cached.go` and collaborators).

Byte strings are modelled as `List Nat` with an explicit validity predicate
`validBytes` (every element `< 256`) where byte-ness matters.  Go `nil`
slices are modelled as `none : Option (List Nat)` wherever the code
distinguishes `nil` from an empty slice (cursor keys).  Slice expressions
that Go checks at runtime (`k[i:]`, `k[:i]`) are modelled with truncating
`List.take` / `List.drop`; the separate predicate `keyIsBeforeDefined`
records exactly which inputs keep every slice access of `keyIsBefore`
within bounds (the model in which `len = cap`, i.e. indexing past the
length of the handed slice is out of range).
-/

/-- `common.HashLength` from the source: length in bytes of a Keccak hash. -/
def HashLength : Nat := 32

/-- Validity of a modelled byte string: every element is an actual byte. -/
def validBytes (l : List Nat) : Bool := l.all (· < 256)

/-- Go `bytes.Compare`: lexicographic comparison of byte slices, a strict
prefix sorting before its extensions.  Returns `-1`, `0` or `1`. -/
def bytesCompare : List Nat → List Nat → Int
  | [], [] => 0
  | [], _ :: _ => -1
  | _ :: _, [] => 1
  | a :: as, b :: bs => if a < b then -1 else if b < a then 1 else bytesCompare as bs

/-- `nextSubtree` from `resolver_stateful_cached.go`: byte-string increment.
The Go loop scans from the rightmost byte, increments the first non-`0xFF`
byte and zeroes everything to its right; it returns `(nil, false)` when all
bytes are `0xFF` (including the empty string).  The recursion below performs
the same computation head-first: the tail is incremented if possible,
otherwise the head byte is incremented and the tail zeroed. -/
def nextSubtree (l : List Nat) : Option (List Nat) :=
  match l with
  | [] => none
  | b :: rest =>
    match nextSubtree rest with
    | some r => some (b :: r)
    | none => if b = 255 then none else some ((b + 1) :: List.replicate rest.length 0)

/-- `keyIsBefore` from `resolver_stateful_cached.go`.  `nil` (modelled as
`none`) sorts after every key; keys of length at most `HashLength` compare
whole (ties won by `k1`); longer keys compare their first `HashLength`
bytes, and on a tie compare `k1[HashLength:]` against `k2[HashLength+8:]`
(skipping the 8-byte incarnation of the longer storage key). -/
def keyIsBefore : Option (List Nat) → Option (List Nat) → Bool × Option (List Nat)
  | none, k2 => (false, k2)
  | some k1, none => (true, some k1)
  | some k1, some k2 =>
    if k1.length ≤ HashLength then
      if bytesCompare k1 k2 ≤ 0 then (true, some k1) else (false, some k2)
    else
      let c := bytesCompare (k1.take HashLength) (k2.take HashLength)
      if c = -1 then (true, some k1)
      else if c = 1 then (false, some k2)
      else if bytesCompare (k1.drop HashLength) (k2.drop (HashLength + 8)) ≤ 0 then
        (true, some k1)
      else (false, some k2)

/-- The domain of `keyIsBefore` in the `len = cap` slice model: `true` iff
every slice expression evaluated by the Go code is within bounds.  For
`len k1 > HashLength` the code evaluates `k2[:HashLength]` (needs
`HashLength ≤ len k2`) and, when the first `HashLength` bytes tie,
`k2[HashLength+8:]` (needs `HashLength + 8 ≤ len k2`). -/
def keyIsBeforeDefined : Option (List Nat) → Option (List Nat) → Bool
  | none, _ => true
  | some _, none => true
  | some k1, some k2 =>
    if k1.length ≤ HashLength then true
    else
      decide (HashLength ≤ k2.length) &&
        (if bytesCompare (k1.take HashLength) (k2.take HashLength) = 0 then
          decide (HashLength + 8 ≤ k2.length)
        else true)

/-- Base-256 value of a byte string (most significant byte first). -/
def lexNat : List Nat → Nat
  | [] => 0
  | a :: as => a * 256 ^ as.length + lexNat as

theorem bytesCompare_self (a : List Nat) : bytesCompare a a = 0 := by
  induction a with
  | nil => rfl
  | cons x xs ih => simp [bytesCompare, ih]

theorem bytesCompare_eq_zero_iff (a b : List Nat) : bytesCompare a b = 0 ↔ a = b := by
  induction a generalizing b with
  | nil => cases b <;> simp [bytesCompare]
  | cons x xs ih =>
    cases b with
    | nil => simp [bytesCompare]
    | cons y ys =>
      by_cases hxy : x < y
      · simp [bytesCompare, hxy]
        omega
      · by_cases hyx : y < x
        · simp [bytesCompare, hxy, hyx]
          omega
        · have hxyeq : x = y := by omega
          simp [bytesCompare, hxy, hyx, hxyeq, ih]

theorem bytesCompare_neg (a b : List Nat) : bytesCompare b a = -bytesCompare a b := by
  induction a generalizing b with
  | nil => cases b <;> simp [bytesCompare]
  | cons x xs ih =>
    cases b with
    | nil => simp [bytesCompare]
    | cons y ys =>
      by_cases hxy : x < y
      · have : ¬ y < x := by omega
        simp [bytesCompare, hxy, this]
      · by_cases hyx : y < x
        · simp [bytesCompare, hxy, hyx]
        · simp [bytesCompare, hxy, hyx, ih]

theorem bytesCompare_mem (a b : List Nat) :
    bytesCompare a b = -1 ∨ bytesCompare a b = 0 ∨ bytesCompare a b = 1 := by
  induction a generalizing b with
  | nil => cases b <;> simp [bytesCompare]
  | cons x xs ih =>
    cases b with
    | nil => simp [bytesCompare]
    | cons y ys =>
      by_cases hxy : x < y
      · simp [bytesCompare, hxy]
      · by_cases hyx : y < x
        · simp [bytesCompare, hxy, hyx]
        · simpa [bytesCompare, hxy, hyx] using ih ys

theorem lexNat_lt_pow (l : List Nat) (h : validBytes l = true) :
    lexNat l < 256 ^ l.length := by
  induction l with
  | nil => simp [lexNat]
  | cons x xs ih =>
    simp only [validBytes, List.all_cons, Bool.and_eq_true, decide_eq_true_eq] at h
    have hx : x < 256 := h.1
    have hxs := ih (by simp [validBytes, h.2])
    simp only [lexNat, List.length_cons, pow_succ]
    calc x * 256 ^ xs.length + lexNat xs
        < x * 256 ^ xs.length + 256 ^ xs.length := by omega
      _ = (x + 1) * 256 ^ xs.length := by ring
      _ ≤ 256 * 256 ^ xs.length := by
          have : x + 1 ≤ 256 := by omega
          exact Nat.mul_le_mul_right _ this
      _ = 256 ^ xs.length * 256 := by ring

theorem lexNat_all255 (l : List Nat) (h : l.all (· = 255) = true) :
    lexNat l = 256 ^ l.length - 1 := by
  induction l with
  | nil => simp [lexNat]
  | cons x xs ih =>
    simp only [List.all_cons, Bool.and_eq_true, decide_eq_true_eq] at h
    have hxs := ih h.2
    have hpos : 1 ≤ 256 ^ xs.length := Nat.one_le_pow _ _ (by omega)
    simp only [lexNat, List.length_cons, pow_succ, h.1, hxs]
    omega

theorem lexNat_replicate_zero (n : Nat) : lexNat (List.replicate n 0) = 0 := by
  induction n with
  | zero => rfl
  | succ m ih => simp [List.replicate_succ, lexNat, ih]

theorem nextSubtree_none_iff (l : List Nat) :
    nextSubtree l = none ↔ l.all (· = 255) = true := by
  induction l with
  | nil => simp [nextSubtree]
  | cons x xs ih =>
    constructor
    · intro h
      simp only [nextSubtree] at h
      cases hx : nextSubtree xs with
      | some r => rw [hx] at h; exact absurd h (by simp)
      | none =>
        rw [hx] at h
        by_cases hb : x = 255
        · have := ih.mp hx
          simp [List.all_cons, hb, this]
        · simp [hb] at h
    · intro h
      simp only [List.all_cons, Bool.and_eq_true, decide_eq_true_eq] at h
      simp only [nextSubtree, ih.mpr h.2, h.1, if_true]

theorem nextSubtree_length (l r : List Nat) (h : nextSubtree l = some r) :
    r.length = l.length := by
  induction l generalizing r with
  | nil => simp [nextSubtree] at h
  | cons x xs ih =>
    simp only [nextSubtree] at h
    cases hx : nextSubtree xs with
    | some r0 =>
      simp only [hx, Option.some.injEq] at h
      subst h
      simp [ih r0 hx]
    | none =>
      simp only [hx] at h
      by_cases hb : x = 255
      · simp [hb] at h
      · simp only [hb, if_false] at h
        cases h
        simp

theorem nextSubtree_valid (l r : List Nat) (hv : validBytes l = true)
    (h : nextSubtree l = some r) : validBytes r = true := by
  induction l generalizing r with
  | nil => simp [nextSubtree] at h
  | cons x xs ih =>
    simp only [validBytes, List.all_cons, Bool.and_eq_true, decide_eq_true_eq] at hv
    simp only [nextSubtree] at h
    cases hx : nextSubtree xs with
    | some r0 =>
      simp only [hx, Option.some.injEq] at h
      subst h
      have := ih r0 (by simp [validBytes, hv.2]) hx
      simp only [validBytes, List.all_cons, Bool.and_eq_true, decide_eq_true_eq]
      exact ⟨hv.1, by simpa [validBytes] using this⟩
    | none =>
      simp only [hx] at h
      by_cases hb : x = 255
      · simp [hb] at h
      · simp only [hb, if_false] at h
        cases h
        simp only [validBytes, List.all_cons, Bool.and_eq_true, decide_eq_true_eq]
        constructor
        · omega
        · rw [List.all_eq_true]
          intro y hy
          have := List.eq_of_mem_replicate hy
          simp [this]

theorem nextSubtree_lexNat (l r : List Nat) (hv : validBytes l = true)
    (h : nextSubtree l = some r) : lexNat r = lexNat l + 1 := by
  induction l generalizing r with
  | nil => simp [nextSubtree] at h
  | cons x xs ih =>
    simp only [validBytes, List.all_cons, Bool.and_eq_true, decide_eq_true_eq] at hv
    simp only [nextSubtree] at h
    cases hx : nextSubtree xs with
    | some r0 =>
      simp only [hx, Option.some.injEq] at h
      subst h
      have hlen : r0.length = xs.length := nextSubtree_length xs r0 hx
      have hval := ih r0 (by simp [validBytes, hv.2]) hx
      simp only [lexNat, hlen, hval]
      omega
    | none =>
      simp only [hx] at h
      by_cases hb : x = 255
      · simp [hb] at h
      · simp only [hb, if_false] at h
        cases h
        have hall : xs.all (· = 255) = true := (nextSubtree_none_iff xs).mp hx
        have h255 := lexNat_all255 xs hall
        have hpos : 1 ≤ 256 ^ xs.length := Nat.one_le_pow _ _ (by omega)
        have hmul : (x + 1) * 256 ^ xs.length = x * 256 ^ xs.length + 256 ^ xs.length := by
          ring
        simp only [lexNat, List.length_replicate, lexNat_replicate_zero, h255]
        omega

theorem lexNat_cons_lt (x y : Nat) (xs ys : List Nat) (hlen : xs.length = ys.length)
    (hxs : validBytes xs = true) (hxy : x < y) :
    lexNat (x :: xs) < lexNat (y :: ys) := by
  have hbx := lexNat_lt_pow xs hxs
  simp only [lexNat]
  calc x * 256 ^ xs.length + lexNat xs
      < x * 256 ^ xs.length + 256 ^ xs.length := by omega
    _ = (x + 1) * 256 ^ xs.length := by ring
    _ ≤ y * 256 ^ xs.length := Nat.mul_le_mul_right _ (by omega)
    _ = y * 256 ^ ys.length := by rw [hlen]
    _ ≤ y * 256 ^ ys.length + lexNat ys := Nat.le_add_right _ _

theorem bytesCompare_lexNat_lt (a b : List Nat) (hlen : a.length = b.length)
    (ha : validBytes a = true) (hb : validBytes b = true) :
    (bytesCompare a b = -1 ↔ lexNat a < lexNat b) := by
  induction a generalizing b with
  | nil =>
    cases b with
    | nil => simp [bytesCompare, lexNat]
    | cons y ys => simp at hlen
  | cons x xs ih =>
    cases b with
    | nil => simp at hlen
    | cons y ys =>
      have hlen' : xs.length = ys.length := by simpa using hlen
      simp only [validBytes, List.all_cons, Bool.and_eq_true, decide_eq_true_eq] at ha hb
      have hxs : validBytes xs = true := by simp [validBytes, ha.2]
      have hys : validBytes ys = true := by simp [validBytes, hb.2]
      by_cases hxy : x < y
      · simp only [bytesCompare, hxy, if_true, true_iff]
        exact lexNat_cons_lt x y xs ys hlen' hxs hxy
      · by_cases hyx : y < x
        · simp only [bytesCompare, hxy, if_false, hyx, if_true]
          constructor
          · intro hc; exact absurd hc (by decide)
          · intro hlt
            exfalso
            exact Nat.lt_asymm hlt (lexNat_cons_lt y x ys xs hlen'.symm hys hyx)
        · have hxyeq : x = y := by omega
          subst hxyeq
          simp only [bytesCompare, Nat.lt_irrefl, if_false, lexNat]
          rw [hlen', ih ys hlen' hxs hys]
          omega

/-- C3: for every valid byte string `b` that is not all-`0xFF`, `nextSubtree b`
returns some `r` of the same length with `b < r` lexicographically and no
same-length byte string strictly between them; for all-`0xFF` input (including
the empty string) it returns `none`. -/
theorem c3_nextSubtree_successor (b : List Nat) (hv : validBytes b = true) :
    (¬ b.all (· = 255) = true →
      ∃ r, nextSubtree b = some r ∧ r.length = b.length ∧ bytesCompare b r = -1 ∧
        ∀ c : List Nat, validBytes c = true → c.length = b.length →
          bytesCompare b c = -1 → bytesCompare c r = -1 → False) ∧
    (b.all (· = 255) = true → nextSubtree b = none) := by
  constructor
  · intro hnot
    cases hr : nextSubtree b with
    | none => exact absurd ((nextSubtree_none_iff b).mp hr) hnot
    | some r =>
      have hlen := nextSubtree_length b r hr
      have hvr := nextSubtree_valid b r hv hr
      have hlex := nextSubtree_lexNat b r hv hr
      refine ⟨r, rfl, hlen, ?_, ?_⟩
      · exact (bytesCompare_lexNat_lt b r hlen.symm hv hvr).mpr (by omega)
      · intro c hvc hclen hbc hcr
        have h1 := (bytesCompare_lexNat_lt b c hclen.symm hv hvc).mp hbc
        have h2 := (bytesCompare_lexNat_lt c r (hclen.trans hlen.symm) hvc hvr).mp hcr
        omega
  · intro hall
    exact (nextSubtree_none_iff b).mpr hall

/-- Witness for C3: the all-`0xFF` branch at the concrete input `[255, 255]`. -/
theorem c3_nextSubtree_successor_witness : nextSubtree ([255, 255] : List Nat) = none :=
  (c3_nextSubtree_successor [255, 255] (by decide)).2 (by decide)

/-- C1 counterexample: at `a = b = [0]` (non-nil) both `keyIsBefore a b` and
`keyIsBefore b a` return `true` (the code maps a comparison of `0` to `true`),
so "exactly one of the two is true" fails. -/
theorem c1_counterexample :
    ¬ xor (keyIsBefore (some [0]) (some [0])).1 (keyIsBefore (some [0]) (some [0])).1 = true := by
  decide

/-- C1 amended: for distinct non-nil keys of length at most `HashLength`
exactly one of `keyIsBefore a b`, `keyIsBefore b a` is true, and `nil` sorts
after any non-nil key (`keyIsBefore a nil = true`). -/
theorem c1_amended_total_order :
    (∀ a b : List Nat, a.length ≤ HashLength → b.length ≤ HashLength → a ≠ b →
      xor (keyIsBefore (some a) (some b)).1 (keyIsBefore (some b) (some a)).1 = true) ∧
    (∀ a : List Nat, (keyIsBefore (some a) none).1 = true) := by
  constructor
  · intro a b ha hb hne
    have hzero : bytesCompare a b ≠ 0 := fun h => hne ((bytesCompare_eq_zero_iff a b).mp h)
    have hneg : bytesCompare b a = -bytesCompare a b := bytesCompare_neg a b
    simp only [keyIsBefore, if_pos ha, if_pos hb]
    rcases bytesCompare_mem a b with h | h | h
    · simp [h, hneg]
    · exact absurd h hzero
    · simp [h, hneg]
  · intro a
    rfl

/-- Witness for the amended C1 at the concrete keys `[0]` and `[1]`. -/
theorem c1_amended_total_order_witness :
    xor (keyIsBefore (some [0]) (some [1])).1 (keyIsBefore (some [1]) (some [0])).1 = true :=
  c1_amended_total_order.1 [0] [1] (by decide) (by decide) (by decide)

/-- C10: `keyIsBefore` keeps every slice access in bounds for `len k1 ≤ 32`
(any non-nil `k2`); when `len k1 > 32` and the first 32 bytes of `k1` and
`k2` agree, it is in bounds only if `len k2 ≥ 40` — at the concrete input
`k1 = 0^33`, `k2 = 0^32` the access `k2[40:]` is out of range. -/
theorem c10_keyIsBefore_bounds :
    keyIsBeforeDefined (some (List.replicate 33 0)) (some (List.replicate 32 0)) = false ∧
    (∀ k1 k2 : List Nat, k1.length ≤ HashLength →
      keyIsBeforeDefined (some k1) (some k2) = true) ∧
    (∀ k1 k2 : List Nat, HashLength < k1.length →
      k1.take HashLength = k2.take HashLength → k2.length < HashLength + 8 →
      keyIsBeforeDefined (some k1) (some k2) = false) := by
  refine ⟨by decide, ?_, ?_⟩
  · intro k1 k2 h
    simp [keyIsBeforeDefined, h]
  · intro k1 k2 h1 h2 h3
    have hc : bytesCompare (k1.take HashLength) (k2.take HashLength) = 0 :=
      (bytesCompare_eq_zero_iff _ _).mpr h2
    have hnotle : ¬ k1.length ≤ HashLength := by omega
    have hnot40 : ¬ (HashLength + 8 ≤ k2.length) := by omega
    simp only [keyIsBeforeDefined, if_neg hnotle, if_pos hc]
    simp [hnot40]

/-- Witness for C10 at the concrete keys `[1, 2]` and `[3]`. -/
theorem c10_keyIsBefore_bounds_witness :
    keyIsBeforeDefined (some [1, 2]) (some [3]) = true :=
  c10_keyIsBefore_bounds.2.1 [1, 2] [3] (by decide)

/-- Modelled from the spec: a resolve set is an ordered set of added nibble
fragments plus a `minLength`; its implementation (`NewResolveSet`, `AddHex`,
`HashOnly` of the trie package) is not among the given sources.  Per the spec,
`HashOnly p` is true iff no added fragment is a prefix of `p` and
`|p| ≥ minLength` (a fragment equal to `p` is a prefix of `p`, so ties yield
`false`). -/
structure ResolveSet where
  minLength : Nat
  hexes : List (List Nat)
deriving Repr, DecidableEq

/-- Modelled from the spec: a fresh resolve set with the given `minLength`. -/
def NewResolveSet (minLength : Nat) : ResolveSet := ⟨minLength, []⟩

/-- Modelled from the spec: record one more nibble fragment. -/
def ResolveSet.AddHex (rs : ResolveSet) (hex : List Nat) : ResolveSet :=
  { rs with hexes := rs.hexes ++ [hex] }

/-- Modelled from the spec: the hash-substitution oracle. -/
def ResolveSet.HashOnly (rs : ResolveSet) (p : List Nat) : Bool :=
  rs.hexes.all (fun h => ! h.isPrefixOf p) && decide (rs.minLength ≤ p.length)

/-- `ResolveRequest` fields used by the cached resolver.  `extResolvePos` is
mutable state written by the planner (`req.extResolvePos = req.resolvePos +
2*len(req.contract)`). -/
structure ResolveRequest where
  contract : List Nat
  resolveHex : List Nat
  resolvePos : Nat
  extResolvePos : Nat
deriving Repr, DecidableEq

/-- Modelled from the spec: `pack(nibbles)`, two nibbles per byte with the
high nibble first.  The spec requires even length; an odd trailing nibble is
packed into the high half of a final byte (the planner only reads the packed
prefix through the masked `fixedbits` comparison, so this choice is
unobservable there). -/
def packNibbles : List Nat → List Nat
  | [] => []
  | [a] => [a * 16]
  | a :: b :: rest => (a * 16 + b) :: packNibbles rest

/-- The planner allocates a zero buffer of `outLen` bytes
(`make([]byte, pLen+len(resolveHex[:resolvePos]))`, one byte per nibble) and
`decodeNibbles` writes the packed nibbles into its prefix; the remainder of
the buffer stays zero. -/
def decodeNibblesInto (nibbles : List Nat) (outLen : Nat) : List Nat :=
  (packNibbles nibbles ++ List.replicate outLen 0).take outLen

/-- Mutable fields of `ResolverStatefulCached` touched by the planner. -/
structure ResolverState where
  topLevels : Nat
  requests : List ResolveRequest
  reqIndices : List Nat
  rss : List ResolveSet
  currentReq : Option ResolveRequest
  currentRs : Option ResolveSet
deriving Repr, DecidableEq

/-- Accumulator of the `PrepareResolveParams` loop: the slices built so far
and the requests already traversed (with their `extResolvePos` mutations). -/
structure PlanAcc where
  startkeys : List (List Nat)
  fixedbits : List Nat
  reqIndices : List Nat
  rss : List ResolveSet
  doneReqs : List ResolveRequest
deriving Repr, DecidableEq

/-- The planner's range-opening condition: no previous opening request, or a
different contract, or a different `resolveHex[:resolvePos]` prefix. -/
def opensRange (prevReq : Option ResolveRequest) (req : ResolveRequest) : Bool :=
  match prevReq with
  | none => true
  | some p =>
    !(req.contract == p.contract &&
      req.resolveHex.take req.resolvePos == p.resolveHex.take p.resolvePos)

/-- In-place `AddHex` on the last resolve set
(`rs := tr.rss[len(tr.rss)-1]; rs.AddHex(...)`). -/
def updateLastRs (rss : List ResolveSet) (hex : List Nat) : List ResolveSet :=
  match rss with
  | [] => []
  | [rs] => [rs.AddHex hex]
  | rs :: rest => rs :: updateLastRs rest hex

/-- The loop of `PrepareResolveParams` over the request list: `i` is the Go
loop index, `prevReq` the last request that opened a range. -/
def planLoop (topLevels : Nat) :
    List ResolveRequest → Nat → Option ResolveRequest → PlanAcc → PlanAcc
  | [], _, _, acc => acc
  | req :: rest, i, prevReq, acc =>
    if opensRange prevReq req then
      let pLen := req.contract.length
      let key := req.contract ++
        decodeNibblesInto (req.resolveHex.take req.resolvePos) req.resolvePos
      let ext := req.resolvePos + 2 * pLen
      let req' := { req with extResolvePos := ext }
      let minLength := if req.resolvePos ≥ topLevels then 0 else topLevels - req.resolvePos
      planLoop topLevels rest (i + 1) (some req')
        { startkeys := acc.startkeys ++ [key]
          fixedbits := acc.fixedbits ++ [4 * ext]
          reqIndices := acc.reqIndices ++ [i]
          rss := acc.rss ++ [(NewResolveSet minLength).AddHex
            (req.resolveHex.drop req.resolvePos)]
          doneReqs := acc.doneReqs ++ [req'] }
    else
      planLoop topLevels rest (i + 1) prevReq
        { acc with
          rss := updateLastRs acc.rss (req.resolveHex.drop req.resolvePos)
          doneReqs := acc.doneReqs ++ [req] }

/-- `PrepareResolveParams` from `resolver_stateful_cached.go`: resets `rss`,
folds the request list (appending to the persistent `reqIndices`), finally
sets `currentReq`/`currentRs`. -/
def PrepareResolveParams (s : ResolverState) : (List (List Nat) × List Nat) × ResolverState :=
  if s.requests.isEmpty then (([], []), { s with rss := [] })
  else
    let acc := planLoop s.topLevels s.requests 0 none ⟨[], [], s.reqIndices, [], []⟩
    ((acc.startkeys, acc.fixedbits),
      { s with
        requests := acc.doneReqs
        reqIndices := acc.reqIndices
        rss := acc.rss
        currentReq := acc.doneReqs.get? ((acc.reqIndices.get? 0).getD 0)
        currentRs := acc.rss.get? 0 })

theorem get?_append_of_some {α : Type} (l l' : List α) (n : Nat) (a : α)
    (h : l.get? n = some a) : (l ++ l').get? n = some a := by
  have hlt : n < l.length := by
    by_contra hge
    rw [List.get?_eq_none.mpr (by omega)] at h
    cases h
  rw [List.get?_append hlt]
  exact h

theorem updateLastRs_length (rss : List ResolveSet) (hex : List Nat) :
    (updateLastRs rss hex).length = rss.length := by
  induction rss with
  | nil => rfl
  | cons rs rest ih =>
    cases rest with
    | nil => rfl
    | cons b bs => simpa [updateLastRs] using ih

theorem updateLastRs_get_lt (rss : List ResolveSet) (hex : List Nat) (j : Nat)
    (h : j + 1 < rss.length) : (updateLastRs rss hex).get? j = rss.get? j := by
  induction rss generalizing j with
  | nil => simp at h
  | cons rs rest ih =>
    cases rest with
    | nil => simp at h
    | cons b bs =>
      cases j with
      | zero => rfl
      | succ k =>
        have hk : k + 1 < (b :: bs).length := by
          simpa using h
        simpa [updateLastRs] using ih k hk

theorem updateLastRs_last (rss : List ResolveSet) (hex : List Nat) (rs0 : ResolveSet)
    (h : rss.get? (rss.length - 1) = some rs0) :
    (updateLastRs rss hex).get? (rss.length - 1) = some (rs0.AddHex hex) := by
  induction rss with
  | nil => simp at h
  | cons rs rest ih =>
    cases rest with
    | nil =>
      simp only [List.length_cons, List.length_nil, Nat.add_sub_cancel, List.get?] at h ⊢
      cases h
      rfl
    | cons b bs =>
      have hlen : (rs :: b :: bs).length - 1 = ((b :: bs).length - 1) + 1 := by
        simp
      rw [hlen] at h ⊢
      simp only [List.get?] at h ⊢
      exact ih h

/-- The claimed per-range planner output (§3 of the spec, amended: the
startkey carries the zero padding of the one-byte-per-nibble buffer): range
`j` was opened by request `reqIndices[j]`, whose mutated `extResolvePos`,
`startkey`, `fixedbits` and resolve-set `minLength` satisfy the planner
formulas. -/
def rangeFormulasOk (topLevels : Nat) (startkeys : List (List Nat)) (fixedbits : List Nat)
    (reqIndices : List Nat) (rss : List ResolveSet) (reqs : List ResolveRequest)
    (j : Nat) : Prop :=
  ∃ idx req, reqIndices.get? j = some idx ∧ reqs.get? idx = some req ∧
    startkeys.get? j = some (req.contract ++
      decodeNibblesInto (req.resolveHex.take req.resolvePos) req.resolvePos) ∧
    fixedbits.get? j = some (4 * req.extResolvePos) ∧
    req.extResolvePos = req.resolvePos + 2 * req.contract.length ∧
    ∃ rs, rss.get? j = some rs ∧
      (rs.minLength : Int) = max 0 ((topLevels : Int) - (req.resolvePos : Int))

theorem planLoop_ranges (topLevels : Nat) (reqs : List ResolveRequest) :
    ∀ (i : Nat) (prev : Option ResolveRequest) (acc : PlanAcc),
      i = acc.doneReqs.length →
      (prev ≠ none → acc.rss ≠ []) →
      acc.startkeys.length = acc.rss.length →
      acc.fixedbits.length = acc.rss.length →
      acc.reqIndices.length = acc.rss.length →
      (∀ j, j < acc.rss.length →
        rangeFormulasOk topLevels acc.startkeys acc.fixedbits acc.reqIndices acc.rss
          acc.doneReqs j) →
      (planLoop topLevels reqs i prev acc).startkeys.length =
          (planLoop topLevels reqs i prev acc).rss.length ∧
      (planLoop topLevels reqs i prev acc).fixedbits.length =
          (planLoop topLevels reqs i prev acc).rss.length ∧
      (planLoop topLevels reqs i prev acc).reqIndices.length =
          (planLoop topLevels reqs i prev acc).rss.length ∧
      ∀ j, j < (planLoop topLevels reqs i prev acc).rss.length →
        rangeFormulasOk topLevels (planLoop topLevels reqs i prev acc).startkeys
          (planLoop topLevels reqs i prev acc).fixedbits
          (planLoop topLevels reqs i prev acc).reqIndices
          (planLoop topLevels reqs i prev acc).rss
          (planLoop topLevels reqs i prev acc).doneReqs j := by
  induction reqs with
  | nil =>
    intro i prev acc _ _ h1 h2 h3 h4
    exact ⟨h1, h2, h3, h4⟩
  | cons req rest ih =>
    intro i prev acc hi hprev h1 h2 h3 h4
    by_cases hopen : opensRange prev req = true
    · simp only [planLoop, hopen, if_true]
      apply ih
      · simp [hi]
      · intro _
        simp
      · simp [h1]
      · simp [h2]
      · simp [h3]
      · intro j hj
        simp only [List.length_append, List.length_singleton] at hj
        by_cases hjlt : j < acc.rss.length
        · obtain ⟨idx, r, hidx, hr, hsk, hfb, hext, rs, hrs, hmin⟩ := h4 j hjlt
          exact ⟨idx, r, get?_append_of_some _ _ _ _ hidx, get?_append_of_some _ _ _ _ hr,
            get?_append_of_some _ _ _ _ hsk, get?_append_of_some _ _ _ _ hfb, hext,
            rs, get?_append_of_some _ _ _ _ hrs, hmin⟩
        · have hjeq : j = acc.rss.length := by omega
          subst hjeq
          refine ⟨i, { req with extResolvePos := req.resolvePos + 2 * req.contract.length },
            ?_, ?_, ?_, ?_, rfl, ?_⟩
          · rw [← h3, List.get?_concat_length]
          · rw [hi, List.get?_concat_length]
          · rw [← h1, List.get?_concat_length]
          · rw [← h2, List.get?_concat_length]
          · refine ⟨_, List.get?_concat_length _ _, ?_⟩
            simp only [ResolveSet.AddHex, NewResolveSet]
            by_cases hge : req.resolvePos ≥ topLevels
            · simp only [hge, if_true]
              have : (topLevels : Int) - (req.resolvePos : Int) ≤ 0 := by
                omega
              omega
            · simp only [hge, if_false]
              have : (0 : Int) ≤ (topLevels : Int) - (req.resolvePos : Int) := by
                omega
              omega
    · have hopen' : opensRange prev req = false := by
        revert hopen
        cases opensRange prev req <;> simp
      have hsome : prev ≠ none := by
        intro hn
        rw [hn] at hopen'
        simp [opensRange] at hopen'
      have hne : acc.rss ≠ [] := hprev hsome
      simp only [planLoop, hopen', Bool.false_eq_true, if_false]
      apply ih
      · simp [hi]
      · intro _ habs
        dsimp only at habs
        apply hne
        have hlen := updateLastRs_length acc.rss (req.resolveHex.drop req.resolvePos)
        rw [habs] at hlen
        exact List.eq_nil_of_length_eq_zero hlen.symm
      · simp [updateLastRs_length, h1]
      · simp [updateLastRs_length, h2]
      · simp [updateLastRs_length, h3]
      · intro j hj
        simp only [updateLastRs_length] at hj
        obtain ⟨idx, r, hidx, hr, hsk, hfb, hext, rs, hrs, hmin⟩ := h4 j hj
        refine ⟨idx, r, hidx, get?_append_of_some _ _ _ _ hr, hsk, hfb, hext, ?_⟩
        by_cases hlast : j + 1 < acc.rss.length
        · exact ⟨rs, by rw [updateLastRs_get_lt _ _ _ hlast]; exact hrs, hmin⟩
        · have hjeq : j = acc.rss.length - 1 := by omega
          subst hjeq
          refine ⟨rs.AddHex (req.resolveHex.drop req.resolvePos),
            updateLastRs_last _ _ _ hrs, ?_⟩
          simpa [ResolveSet.AddHex] using hmin

/-- C7 counterexample: at the single request `{contract: [], resolveHex:
[1, 2], resolvePos: 2}` the planner's startkey is `[0x12, 0x00]` (the
one-byte-per-nibble buffer leaves a zero padding byte), not
`contract ++ pack(resolveHex[:resolvePos]) = [0x12]` as claimed. -/
theorem c7_counterexample :
    (PrepareResolveParams ⟨0, [⟨[], [1, 2], 2, 0⟩], [], [], none, none⟩).1.1 = [[18, 0]] ∧
    [[18, 0]] ≠ [([] : List Nat) ++ packNibbles ([1, 2].take 2)] := by
  decide

/-- C7 amended: for every request opening a new range the planner computes
`minLength = max(0, topLevels − resolvePos)`, `extResolvePos = resolvePos +
2*|contract|`, `fixed_bits = 4*extResolvePos`, and `startkey = contract ++
pack(resolveHex[:resolvePos])` zero-padded to `|contract| + resolvePos`
bytes; an adjacent request sharing `(contract, resolveHex[:resolvePos])`
with the previous opener does not open a range and only extends the last
resolve set with its remaining hex suffix. -/
theorem c7_amended_range_params :
    (∀ s : ResolverState, s.reqIndices = [] →
      (PrepareResolveParams s).1.1.length = (PrepareResolveParams s).2.rss.length ∧
      (PrepareResolveParams s).1.2.length = (PrepareResolveParams s).2.rss.length ∧
      (PrepareResolveParams s).2.reqIndices.length = (PrepareResolveParams s).2.rss.length ∧
      ∀ j, j < (PrepareResolveParams s).2.rss.length →
        rangeFormulasOk s.topLevels (PrepareResolveParams s).1.1 (PrepareResolveParams s).1.2
          (PrepareResolveParams s).2.reqIndices (PrepareResolveParams s).2.rss
          (PrepareResolveParams s).2.requests j) ∧
    (∀ (topLevels : Nat) (req : ResolveRequest) (rest : List ResolveRequest) (i : Nat)
        (prev : Option ResolveRequest) (acc : PlanAcc),
      opensRange prev req = false →
      planLoop topLevels (req :: rest) i prev acc =
        planLoop topLevels rest (i + 1) prev
          { acc with
            rss := updateLastRs acc.rss (req.resolveHex.drop req.resolvePos)
            doneReqs := acc.doneReqs ++ [req] } ∧
      (updateLastRs acc.rss (req.resolveHex.drop req.resolvePos)).length = acc.rss.length ∧
      ∀ rs0, acc.rss.get? (acc.rss.length - 1) = some rs0 →
        (updateLastRs acc.rss (req.resolveHex.drop req.resolvePos)).get?
            (acc.rss.length - 1) =
          some (rs0.AddHex (req.resolveHex.drop req.resolvePos))) := by
  constructor
  · intro s hreq
    by_cases hemp : s.requests.isEmpty = true
    · simp only [PrepareResolveParams, hemp, if_true]
      refine ⟨rfl, rfl, by simp [hreq], ?_⟩
      intro j hj
      simp at hj
    · simp only [PrepareResolveParams, hemp, Bool.false_eq_true, if_false]
      have := planLoop_ranges s.topLevels s.requests 0 none ⟨[], [], s.reqIndices, [], []⟩
        rfl (by intro h; exact absurd rfl h) rfl rfl (by simp [hreq])
        (by intro j hj; simp at hj)
      exact this
  · intro topLevels req rest i prev acc hclose
    refine ⟨?_, updateLastRs_length _ _, fun rs0 h => updateLastRs_last _ _ _ h⟩
    simp only [planLoop, hclose, Bool.false_eq_true, if_false]

/-- Witness for the amended C7: a fresh resolver with one request
`{contract: [], resolveHex: [1, 2], resolvePos: 2}` and `topLevels = 0`
produces one range satisfying the formulas. -/
theorem c7_amended_range_params_witness :
    rangeFormulasOk 0
      (PrepareResolveParams ⟨0, [⟨[], [1, 2], 2, 0⟩], [], [], none, none⟩).1.1
      (PrepareResolveParams ⟨0, [⟨[], [1, 2], 2, 0⟩], [], [], none, none⟩).1.2
      (PrepareResolveParams ⟨0, [⟨[], [1, 2], 2, 0⟩], [], [], none, none⟩).2.reqIndices
      (PrepareResolveParams ⟨0, [⟨[], [1, 2], 2, 0⟩], [], [], none, none⟩).2.rss
      (PrepareResolveParams ⟨0, [⟨[], [1, 2], 2, 0⟩], [], [], none, none⟩).2.requests 0 :=
  (c7_amended_range_params.1 ⟨0, [⟨[], [1, 2], 2, 0⟩], [], [], none, none⟩ rfl).2.2.2 0
    (by decide)

/-- The fields of a request the planner reads (it writes `extResolvePos`). -/
def reqProj (req : ResolveRequest) : List Nat × List Nat × Nat :=
  (req.contract, req.resolveHex, req.resolvePos)

theorem opensRange_proj (prev1 prev2 : Option ResolveRequest) (r1 r2 : ResolveRequest)
    (hp : prev1.map reqProj = prev2.map reqProj) (hr : reqProj r1 = reqProj r2) :
    opensRange prev1 r1 = opensRange prev2 r2 := by
  obtain ⟨hc, hh, hpos⟩ : r1.contract = r2.contract ∧ r1.resolveHex = r2.resolveHex ∧
      r1.resolvePos = r2.resolvePos := by
    simpa [reqProj, Prod.ext_iff] using hr
  cases prev1 with
  | none =>
    cases prev2 with
    | none => rfl
    | some p2 => simp at hp
  | some p1 =>
    cases prev2 with
    | none => simp at hp
    | some p2 =>
      obtain ⟨hc2, hh2, hpos2⟩ : p1.contract = p2.contract ∧ p1.resolveHex = p2.resolveHex ∧
          p1.resolvePos = p2.resolvePos := by
        simpa [reqProj, Prod.ext_iff] using hp
      simp [opensRange, hc, hh, hpos, hc2, hh2, hpos2]

theorem planLoop_proj (topLevels : Nat) (reqs1 : List ResolveRequest) :
    ∀ (reqs2 : List ResolveRequest) (i1 i2 : Nat) (prev1 prev2 : Option ResolveRequest)
      (acc1 acc2 : PlanAcc),
      reqs1.map reqProj = reqs2.map reqProj →
      prev1.map reqProj = prev2.map reqProj →
      acc1.startkeys = acc2.startkeys →
      acc1.fixedbits = acc2.fixedbits →
      acc1.rss = acc2.rss →
      acc1.doneReqs.map reqProj = acc2.doneReqs.map reqProj →
      (planLoop topLevels reqs1 i1 prev1 acc1).startkeys =
          (planLoop topLevels reqs2 i2 prev2 acc2).startkeys ∧
      (planLoop topLevels reqs1 i1 prev1 acc1).fixedbits =
          (planLoop topLevels reqs2 i2 prev2 acc2).fixedbits ∧
      (planLoop topLevels reqs1 i1 prev1 acc1).rss =
          (planLoop topLevels reqs2 i2 prev2 acc2).rss ∧
      (planLoop topLevels reqs1 i1 prev1 acc1).doneReqs.map reqProj =
          (planLoop topLevels reqs2 i2 prev2 acc2).doneReqs.map reqProj := by
  induction reqs1 with
  | nil =>
    intro reqs2 i1 i2 prev1 prev2 acc1 acc2 hreqs hp hsk hfb hrss hdone
    cases reqs2 with
    | nil => exact ⟨hsk, hfb, hrss, hdone⟩
    | cons r2 rest2 => simp at hreqs
  | cons r1 rest1 ih =>
    intro reqs2 i1 i2 prev1 prev2 acc1 acc2 hreqs hp hsk hfb hrss hdone
    cases reqs2 with
    | nil => simp at hreqs
    | cons r2 rest2 =>
      simp only [List.map_cons, List.cons.injEq] at hreqs
      obtain ⟨hr, hrest⟩ := hreqs
      obtain ⟨hc, hh, hpos⟩ : r1.contract = r2.contract ∧ r1.resolveHex = r2.resolveHex ∧
          r1.resolvePos = r2.resolvePos := by
        simpa [reqProj, Prod.ext_iff] using hr
      have hopen := opensRange_proj prev1 prev2 r1 r2 hp hr
      by_cases ho : opensRange prev1 r1 = true
      · have ho2 : opensRange prev2 r2 = true := by rw [← hopen]; exact ho
        simp only [planLoop, ho, ho2, if_true]
        apply ih
        · exact hrest
        · simp [reqProj, hc, hh, hpos]
        · simp [hsk, hc, hh, hpos]
        · simp [hfb, hc, hh, hpos]
        · simp [hrss, hh, hpos]
        · simp [hdone, reqProj, hc, hh, hpos]
      · have ho1 : opensRange prev1 r1 = false := by
          revert ho
          cases opensRange prev1 r1 <;> simp
        have ho2 : opensRange prev2 r2 = false := by rw [← hopen]; exact ho1
        simp only [planLoop, ho1, ho2, Bool.false_eq_true, if_false]
        apply ih
        · exact hrest
        · exact hp
        · exact hsk
        · exact hfb
        · simp only [hrss, hh, hpos]
        · simp only [List.map_append, hdone, List.map_cons, List.map_nil, hr]

theorem planLoop_doneReqs (topLevels : Nat) (reqs : List ResolveRequest) :
    ∀ (i : Nat) (prev : Option ResolveRequest) (acc : PlanAcc),
      (planLoop topLevels reqs i prev acc).doneReqs.map reqProj =
        acc.doneReqs.map reqProj ++ reqs.map reqProj := by
  induction reqs with
  | nil => intro i prev acc; simp [planLoop]
  | cons req rest ih =>
    intro i prev acc
    by_cases ho : opensRange prev req = true
    · simp only [planLoop, ho, if_true]
      rw [ih]
      simp [reqProj]
    · have ho' : opensRange prev req = false := by
        revert ho
        cases opensRange prev req <;> simp
      simp only [planLoop, ho', Bool.false_eq_true, if_false]
      rw [ih]
      simp

/-- C8: planning is idempotent — running `PrepareResolveParams` a second
time on the resolver state left by the first run (mutated `extResolvePos`
fields, extended `reqIndices`) yields the same startkeys, fixedbits and
resolve sets. -/
theorem c8_planner_idempotent (s : ResolverState) :
    (PrepareResolveParams s).1 = (PrepareResolveParams (PrepareResolveParams s).2).1 ∧
    (PrepareResolveParams s).2.rss = (PrepareResolveParams (PrepareResolveParams s).2).2.rss := by
  by_cases hemp : s.requests.isEmpty = true
  · simp [PrepareResolveParams, hemp]
  · have hproj := planLoop_doneReqs s.topLevels s.requests 0 none ⟨[], [], s.reqIndices, [], []⟩
    simp only [List.map_nil, List.nil_append] at hproj
    have hlen : (planLoop s.topLevels s.requests 0 none
        ⟨[], [], s.reqIndices, [], []⟩).doneReqs.length = s.requests.length := by
      have := congrArg List.length hproj
      simpa using this
    have hne : s.requests ≠ [] := by
      intro h
      rw [h] at hemp
      simp at hemp
    have hemp2 : ¬ (planLoop s.topLevels s.requests 0 none
        ⟨[], [], s.reqIndices, [], []⟩).doneReqs.isEmpty = true := by
      cases hd : (planLoop s.topLevels s.requests 0 none
          ⟨[], [], s.reqIndices, [], []⟩).doneReqs with
      | nil =>
        exfalso
        rw [hd] at hlen
        exact hne (List.eq_nil_of_length_eq_zero hlen.symm)
      | cons a l => simp
    obtain ⟨hsk, hfb, hrss, _⟩ := planLoop_proj s.topLevels s.requests
      (planLoop s.topLevels s.requests 0 none ⟨[], [], s.reqIndices, [], []⟩).doneReqs
      0 0 none none ⟨[], [], s.reqIndices, [], []⟩
      ⟨[], [], (planLoop s.topLevels s.requests 0 none ⟨[], [], s.reqIndices, [], []⟩).reqIndices,
        [], []⟩
      hproj.symm rfl rfl rfl rfl rfl
    simp only [PrepareResolveParams, hemp, Bool.false_eq_true, if_false, hemp2]
    exact ⟨by rw [Prod.ext_iff]; exact ⟨hsk, hfb⟩, hrss⟩

/-- Modelled from the spec: `DecompressNibbles` (unpack), each byte yielding
its high nibble then its low nibble; its implementation is not among the
given sources. -/
def DecompressNibbles (bs : List Nat) : List Nat :=
  bs.foldr (fun b acc => b / 16 :: b % 16 :: acc) []

/-- Modelled from the spec: `ethdb.Bytesmask(fixedbits)` returns
`((fixedbits+7)/8, mask)` with `mask = 0xFF` when `fixedbits` is a multiple
of 8 and `0xF0` otherwise (this planner only produces multiples of 4). -/
def Bytesmask (fixedbits : Nat) : Nat × Nat :=
  ((fixedbits + 7) / 8, if fixedbits % 8 = 0 then 255 else 240)

/-- A key-value entry of a bucket, sorted ascending by key in a real DB. -/
abbrev KV := List Nat × List Nat

/-- Bolt `Cursor.Seek`: position of the first entry with key ≥ `key`;
`l.length` (exhausted, Go `nil`) when none exists. -/
def seekPos (l : List KV) (key : List Nat) : Nat :=
  l.findIdx fun kv => decide (0 ≤ bytesCompare kv.1 key)

/-- The key under the cursor, `none` when exhausted (Go `nil`). -/
def cursorKey (l : List KV) (pos : Nat) : Option (List Nat) :=
  (l.get? pos).map Prod.fst

/-- The value under the cursor, empty when exhausted. -/
def cursorVal (l : List KV) (pos : Nat) : List Nat :=
  ((l.get? pos).map Prod.snd).getD []

/-- Go `bytes.Equal` over possibly-`nil` slices: `nil` equals the empty
slice. -/
def goBytesEqual (a b : Option (List Nat)) : Bool :=
  a.getD [] == b.getD []

/-- Per-range data the walker reads inside the loop:
`tr.requests[tr.reqIndices[rangeIdx]].extResolvePos` and
`tr.rss[rangeIdx]`. -/
structure RangeReq where
  extResolvePos : Nat
  rs : ResolveSet
deriving Repr, DecidableEq

/-- Static inputs of one `MultiWalk2` run over concrete buckets. -/
structure WalkEnv where
  isAccountBucket : Bool
  main : List KV
  cacheB : List KV
  startkeys : List (List Nat)
  fixedbits : List Nat
  ranges : List RangeReq
deriving Repr, DecidableEq

/-- One record passed to the walker callback
`walker(rangeIdx, keyNibbles, value, fromCache)`. -/
structure Emission where
  rangeIdx : Nat
  keyNibbles : List Nat
  value : List Nat
  fromCache : Bool
deriving Repr, DecidableEq

/-- Result of the range-advancement loop: the walk either returns
(`stop`, Go `return nil`) or continues with re-seeked cursors and an
adjusted range index. -/
inductive AdjustRes
  | stop
  | cont (mPos ccPos rangeIdx : Nat) (fromCache : Bool) (minKey : List Nat)
deriving Repr, DecidableEq

/-- The `for cmp != 0` range-advancement loop of `MultiWalk2`
(`fixedbytes`, `mask` and `startkey` are re-derived from the current
`rangeIdx`, exactly as the Go variables are updated on each range change).
`none` is fuel exhaustion. -/
def adjustLoop (env : WalkEnv) :
    Nat → Nat → Nat → Nat → Bool → List Nat → Option AdjustRes
  | 0, _, _, _, _, _ => none
  | fuel + 1, mPos, ccPos, rangeIdx, fromCache, minKey =>
    let startkey := (env.startkeys.get? rangeIdx).getD []
    let fb := Bytesmask ((env.fixedbits.get? rangeIdx).getD 0)
    let minKeyIndex := Nat.min minKey.length (fb.1 - 1)
    let startKeyIndex := Nat.min startkey.length (fb.1 - 1)
    let cmp0 := bytesCompare (minKey.take minKeyIndex) (startkey.take startKeyIndex)
    let cmp1 := if cmp0 = 0 ∧ minKeyIndex = minKey.length then -1 else cmp0
    let cmp : Int :=
      if cmp1 = 0 then
        let b1 := Nat.land ((minKey.get? minKeyIndex).getD 0) fb.2
        let b2 := Nat.land ((startkey.get? startKeyIndex).getD 0) fb.2
        if b1 < b2 then -1 else if b2 < b1 then 1 else 0
      else cmp1
    if cmp = 0 then some (.cont mPos ccPos rangeIdx fromCache minKey)
    else if cmp < 0 then
      let mPos' := seekPos env.main startkey
      let ccPos' := seekPos env.cacheB startkey
      if cursorKey env.main mPos' = none ∧ cursorKey env.cacheB ccPos' = none then some .stop
      else
        let fm := keyIsBefore (cursorKey env.cacheB ccPos') (cursorKey env.main mPos')
        adjustLoop env fuel mPos' ccPos' rangeIdx fm.1 (fm.2.getD [])
    else
      if rangeIdx + 1 = env.startkeys.length then some .stop
      else adjustLoop env fuel mPos ccPos (rangeIdx + 1) fromCache minKey

/-- Result of one dispatch: emissions of this iteration plus either new
cursor positions (`continue`) or loop exit (`done`, the `break` after an
overflowing cache hit). -/
inductive DispatchRes
  | next (ems : List Emission) (mPos ccPos : Nat)
  | done (ems : List Emission)
deriving Repr, DecidableEq

/-- The subtree skip at the end of the cache branch of `MultiWalk2`:
`next, ok := nextSubtree(cacheK)`; if no successor exists the walk breaks
when the last record was a usable cache hit and otherwise exhausts the
cache cursor; if it exists both cursors seek to it. -/
def skipSubtree (env : WalkEnv) (mPos : Nat) (ck : List Nat) (canUseCache : Bool)
    (ems : List Emission) : DispatchRes :=
  match nextSubtree ck with
  | none => if canUseCache then .done ems else .next ems mPos env.cacheB.length
  | some nxt => .next ems (seekPos env.main nxt) (seekPos env.cacheB nxt)

/-- One iteration of `MultiWalk2` after the range adjustment: emit a
main-bucket record and `c.Next()`, handle a self-destruct tombstone, or
emit/descend on a cache record guarded by `HashOnly`. -/
def dispatchStep (env : WalkEnv) (mPos ccPos rangeIdx : Nat) (fromCache : Bool)
    (minKey : List Nat) : DispatchRes :=
  let k := cursorKey env.main mPos
  let v := cursorVal env.main mPos
  let ck := cursorKey env.cacheB ccPos
  let cv := cursorVal env.cacheB ccPos
  if fromCache = false then
    .next (if v.length > 0 then [⟨rangeIdx, DecompressNibbles minKey, v, false⟩] else [])
      (mPos + 1) ccPos
  else if cv.length = 0 then
    skipSubtree env mPos (ck.getD []) false
      (if env.isAccountBucket ∧ v.length > 0 ∧ goBytesEqual k ck = true then
        [⟨rangeIdx, DecompressNibbles minKey, v, false⟩]
      else [])
  else
    let rq := (env.ranges.get? rangeIdx).getD ⟨0, NewResolveSet 0⟩
    let nibbles := DecompressNibbles minKey
    if nibbles.length < rq.extResolvePos then .next [] mPos (ccPos + 1)
    else if rq.rs.HashOnly (nibbles.drop rq.extResolvePos) = false then
      .next [] mPos (ccPos + 1)
    else skipSubtree env mPos (ck.getD []) true [⟨rangeIdx, nibbles, cv, true⟩]

/-- The main loop of `MultiWalk2`: loop condition, account-bucket filter of
long cache keys, `keyIsBefore` pick, range adjustment, dispatch.  `acc` is
the trace of walker-callback invocations so far; `none` is fuel
exhaustion. -/
def mw2Go (env : WalkEnv) : Nat → Nat → Nat → Nat → List Emission → Option (List Emission)
  | 0, _, _, _, _ => none
  | fuel + 1, mPos, ccPos, rangeIdx, acc =>
    let k := cursorKey env.main mPos
    let ck := cursorKey env.cacheB ccPos
    if k = none ∧ ck = none then some acc
    else if env.isAccountBucket ∧ (ck.getD []).length > HashLength - 1 then
      match nextSubtree ((ck.getD []).take (HashLength - 1)) with
      | none => mw2Go env fuel mPos env.cacheB.length rangeIdx acc
      | some nxt => mw2Go env fuel mPos (seekPos env.cacheB nxt) rangeIdx acc
    else
      let fm := keyIsBefore ck k
      let fb := Bytesmask ((env.fixedbits.get? rangeIdx).getD 0)
      match
        if fb.1 > 0 then adjustLoop env (fuel + 1) mPos ccPos rangeIdx fm.1 (fm.2.getD [])
        else some (.cont mPos ccPos rangeIdx fm.1 (fm.2.getD [])) with
      | none => none
      | some .stop => some acc
      | some (.cont mPos' ccPos' rangeIdx' fc' minKey') =>
        match dispatchStep env mPos' ccPos' rangeIdx' fc' minKey' with
        | .done ems => some (acc ++ ems)
        | .next ems mPos2 ccPos2 => mw2Go env fuel mPos2 ccPos2 rangeIdx' (acc ++ ems)

/-- `MultiWalk2` from `resolver_stateful_cached.go`, with the Bolt
transaction modelled as optional sorted buckets: empty range list and a
missing cache or main bucket all return success immediately; otherwise both
cursors seek `startkeys[0]` and the merged loop runs. -/
def MultiWalk2 (isAccountBucket : Bool) (mainB cacheB : Option (List KV))
    (startkeys : List (List Nat)) (fixedbits : List Nat) (ranges : List RangeReq)
    (fuel : Nat) : Option (List Emission) :=
  if startkeys.length = 0 then some []
  else
    match cacheB with
    | none => some []
    | some cb =>
      match mainB with
      | none => some []
      | some mb =>
        let env : WalkEnv := ⟨isAccountBucket, mb, cb, startkeys, fixedbits, ranges⟩
        let startkey := (startkeys.get? 0).getD []
        mw2Go env fuel (seekPos mb startkey) (seekPos cb startkey) 0 []

/-- Emissions carried by a dispatch result. -/
def DispatchRes.ems : DispatchRes → List Emission
  | .next ems _ _ => ems
  | .done ems => ems

/-- The property claimed of every cache-hit emission: the current range's
resolve set approves hashing the nibble path past its `extResolvePos`. -/
def cacheEmissionOk (env : WalkEnv) (e : Emission) : Prop :=
  e.fromCache = true →
    ((env.ranges.get? e.rangeIdx).getD ⟨0, NewResolveSet 0⟩).rs.HashOnly
      (e.keyNibbles.drop
        ((env.ranges.get? e.rangeIdx).getD ⟨0, NewResolveSet 0⟩).extResolvePos) = true

theorem skipSubtree_ems (env : WalkEnv) (mPos : Nat) (ck : List Nat) (canUseCache : Bool)
    (ems : List Emission) : (skipSubtree env mPos ck canUseCache ems).ems = ems := by
  unfold skipSubtree
  cases nextSubtree ck with
  | none =>
    cases canUseCache <;> rfl
  | some nxt => rfl

theorem dispatchStep_cacheEmissionOk (env : WalkEnv) (mPos ccPos rangeIdx : Nat)
    (fromCache : Bool) (minKey : List Nat) :
    ∀ e ∈ (dispatchStep env mPos ccPos rangeIdx fromCache minKey).ems,
      cacheEmissionOk env e := by
  intro e he
  unfold dispatchStep at he
  dsimp only at he
  split at he
  · simp only [DispatchRes.ems] at he
    split at he
    · rw [List.mem_singleton] at he
      subst he
      intro habs
      simp at habs
    · simp at he
  · split at he
    · rw [skipSubtree_ems] at he
      split at he
      · rw [List.mem_singleton] at he
        subst he
        intro habs
        simp at habs
      · simp at he
    · split at he
      · simp [DispatchRes.ems] at he
      · split at he
        · simp [DispatchRes.ems] at he
        · rename_i hho
          rw [skipSubtree_ems, List.mem_singleton] at he
          subst he
          intro _
          simp only []
          revert hho
          cases ((env.ranges.get? rangeIdx).getD ⟨0, NewResolveSet 0⟩).rs.HashOnly
              ((DecompressNibbles minKey).drop
                ((env.ranges.get? rangeIdx).getD ⟨0, NewResolveSet 0⟩).extResolvePos) <;>
            simp

theorem mw2Go_cacheEmissionOk (env : WalkEnv) :
    ∀ (fuel mPos ccPos rangeIdx : Nat) (acc out : List Emission),
      mw2Go env fuel mPos ccPos rangeIdx acc = some out →
      (∀ e ∈ acc, cacheEmissionOk env e) →
      ∀ e ∈ out, cacheEmissionOk env e := by
  intro fuel
  induction fuel with
  | zero =>
    intro mPos ccPos rangeIdx acc out h hacc
    simp [mw2Go] at h
  | succ f ih =>
    intro mPos ccPos rangeIdx acc out h hacc
    unfold mw2Go at h
    dsimp only at h
    split at h
    · cases h
      exact hacc
    · split at h
      · split at h
        · exact ih _ _ _ _ _ h hacc
        · exact ih _ _ _ _ _ h hacc
      · split at h
        · cases h
        · cases h
          exact hacc
        · rename_i mPos' ccPos' rangeIdx' fc' minKey' _
          split at h
          · rename_i ems hdis
            cases h
            intro e he
            rw [List.mem_append] at he
            rcases he with he | he
            · exact hacc e he
            · have hd := dispatchStep_cacheEmissionOk env mPos' ccPos' rangeIdx' fc' minKey'
              rw [hdis] at hd
              exact hd e he
          · rename_i ems mPos2 ccPos2 hdis
            refine ih _ _ _ _ _ h ?_
            intro e he
            rw [List.mem_append] at he
            rcases he with he | he
            · exact hacc e he
            · have hd := dispatchStep_cacheEmissionOk env mPos' ccPos' rangeIdx' fc' minKey'
              rw [hdis] at hd
              exact hd e he

/-- C2: every walker-callback emission with `fromCache = true` satisfies
`HashOnly` of the current range's resolve set on the nibbles past its
`extResolvePos`; and whenever a non-tombstone cache record fails that test
(or its nibble length is below `extResolvePos`), the iteration advances the
cache cursor with `Next` and emits nothing. -/
theorem c2_cache_hits_hash_only :
    (∀ (env : WalkEnv) (fuel mPos ccPos rangeIdx : Nat) (out : List Emission),
      mw2Go env fuel mPos ccPos rangeIdx [] = some out →
      ∀ e ∈ out, cacheEmissionOk env e) ∧
    (∀ (env : WalkEnv) (mPos ccPos rangeIdx : Nat) (minKey : List Nat),
      (cursorVal env.cacheB ccPos).length ≠ 0 →
      ((DecompressNibbles minKey).length <
          ((env.ranges.get? rangeIdx).getD ⟨0, NewResolveSet 0⟩).extResolvePos ∨
        ((env.ranges.get? rangeIdx).getD ⟨0, NewResolveSet 0⟩).rs.HashOnly
          ((DecompressNibbles minKey).drop
            ((env.ranges.get? rangeIdx).getD ⟨0, NewResolveSet 0⟩).extResolvePos) = false) →
      dispatchStep env mPos ccPos rangeIdx true minKey = .next [] mPos (ccPos + 1)) := by
  constructor
  · intro env fuel mPos ccPos rangeIdx out h
    exact mw2Go_cacheEmissionOk env fuel mPos ccPos rangeIdx [] out h (by intro e he; simp at he)
  · intro env mPos ccPos rangeIdx minKey htomb hdesc
    unfold dispatchStep
    dsimp only
    rw [if_neg (by simp)]
    rw [if_neg htomb]
    rcases hdesc with hshort | hho
    · rw [if_pos hshort]
    · by_cases hshort : (DecompressNibbles minKey).length <
          ((env.ranges.get? rangeIdx).getD ⟨0, NewResolveSet 0⟩).extResolvePos
      · rw [if_pos hshort]
      · rw [if_neg hshort, if_pos hho]

/-- Witness for C2: a concrete cache record whose `HashOnly` test fails
(the added fragment is a prefix), so the step descends with `Next`. -/
theorem c2_cache_hits_hash_only_witness :
    dispatchStep ⟨true, [], [([0], [1])], [[]], [0], [⟨0, ⟨0, [[]]⟩⟩]⟩ 0 0 0 true [0] =
      .next [] 0 1 :=
  c2_cache_hits_hash_only.2 ⟨true, [], [([0], [1])], [[]], [0], [⟨0, ⟨0, [[]]⟩⟩]⟩ 0 0 0 [0]
    (by decide) (Or.inr (by decide))

/-- C4 counterexample: a self-destruct tombstone whose cache key is the
all-`0xFF` string `[255]` has no `nextSubtree`, so the step cannot seek
both cursors to `nextSubtree(ck)` (it exhausts the cache cursor and leaves
the main cursor in place instead). -/
theorem c4_counterexample :
    ¬ ∃ nxt, nextSubtree [255] = some nxt ∧
      dispatchStep ⟨true, [], [([255], [])], [[]], [0], [⟨0, NewResolveSet 0⟩]⟩ 0 0 0
          true [255] =
        .next [] (seekPos [] nxt) (seekPos [([255], [])] nxt) := by
  rintro ⟨nxt, hn, _⟩
  simp [nextSubtree] at hn

/-- C4 amended: at a self-destruct tombstone (`|cv| = 0`) the step emits the
live record with `fromCache = false` iff the bucket is Accounts, `k = ck`
and `|v| > 0`; it then seeks both cursors to `nextSubtree(ck)` when that
successor exists, and otherwise (all-`0xFF` `ck`) exhausts the cache cursor
and leaves the main cursor unchanged. -/
theorem c4_amended_tombstone (env : WalkEnv) (mPos ccPos rangeIdx : Nat) (minKey : List Nat)
    (htomb : (cursorVal env.cacheB ccPos).length = 0) :
    (match nextSubtree ((cursorKey env.cacheB ccPos).getD []) with
     | some nxt => dispatchStep env mPos ccPos rangeIdx true minKey =
        .next
          (if env.isAccountBucket ∧ (cursorVal env.main mPos).length > 0 ∧
              goBytesEqual (cursorKey env.main mPos) (cursorKey env.cacheB ccPos) = true then
            [⟨rangeIdx, DecompressNibbles minKey, cursorVal env.main mPos, false⟩]
          else [])
          (seekPos env.main nxt) (seekPos env.cacheB nxt)
     | none => dispatchStep env mPos ccPos rangeIdx true minKey =
        .next
          (if env.isAccountBucket ∧ (cursorVal env.main mPos).length > 0 ∧
              goBytesEqual (cursorKey env.main mPos) (cursorKey env.cacheB ccPos) = true then
            [⟨rangeIdx, DecompressNibbles minKey, cursorVal env.main mPos, false⟩]
          else [])
          mPos env.cacheB.length) := by
  have hd : dispatchStep env mPos ccPos rangeIdx true minKey =
      skipSubtree env mPos ((cursorKey env.cacheB ccPos).getD []) false
        (if env.isAccountBucket ∧ (cursorVal env.main mPos).length > 0 ∧
            goBytesEqual (cursorKey env.main mPos) (cursorKey env.cacheB ccPos) = true then
          [⟨rangeIdx, DecompressNibbles minKey, cursorVal env.main mPos, false⟩]
        else []) := by
    unfold dispatchStep
    dsimp only
    rw [if_neg (by simp), if_pos htomb]
  cases hn : nextSubtree ((cursorKey env.cacheB ccPos).getD []) with
  | none =>
    rw [hd]
    unfold skipSubtree
    rw [hn]
    simp
  | some nxt =>
    rw [hd]
    unfold skipSubtree
    rw [hn]

/-- Witness for the amended C4: account `[1]` live in main with a tombstone
cache entry `[1]`; the record is emitted and both cursors seek `[2]`. -/
theorem c4_amended_tombstone_witness :
    dispatchStep ⟨true, [([1], [2])], [([1], [])], [[]], [0], [⟨0, NewResolveSet 0⟩]⟩ 0 0 0
        true [1] =
      .next [⟨0, [0, 1], [2], false⟩] 1 1 := by
  have := c4_amended_tombstone ⟨true, [([1], [2])], [([1], [])], [[]], [0], [⟨0, NewResolveSet 0⟩]⟩
    0 0 0 [1] (by decide)
  simpa using this

/-- C6 counterexample: with one main-bucket record and a missing cache
bucket, `MultiWalk2` returns success with no emissions at all, while the
same walk over a present-but-empty cache bucket emits the main record — a
missing bucket is an empty walk, not "no cache available". -/
theorem c6_counterexample :
    MultiWalk2 true (some [([7], [5])]) none [[]] [0] [⟨0, NewResolveSet 0⟩] 10 = some [] ∧
    MultiWalk2 true (some [([7], [5])]) (some []) [[]] [0] [⟨0, NewResolveSet 0⟩] 10 =
      some [⟨0, [0, 7], [5], false⟩] := by
  constructor
  · rfl
  · decide

/-- C6 amended: if the cache bucket is missing, `MultiWalk2` returns
success immediately without walking the main bucket (no records are
emitted); the missing-bucket case never arises through `RebuildTrie`,
which creates the bucket beforehand. -/
theorem c6_amended_missing_cache_bucket (isAccountBucket : Bool) (mainB : Option (List KV))
    (startkeys : List (List Nat)) (fixedbits : List Nat) (ranges : List RangeReq)
    (fuel : Nat) :
    MultiWalk2 isAccountBucket mainB none startkeys fixedbits ranges fuel = some [] := by
  by_cases h : startkeys.length = 0
  · simp [MultiWalk2, h]
  · simp [MultiWalk2, h]

/-- The backend type assertions of `RebuildTrie`: a database value either
implements `HasBolt`, or implements `HasDb` wrapping an inner database, or
neither. -/
inductive DbBackend
  | hasBolt
  | hasDbOf (inner : DbBackend)
  | plain
deriving Repr, DecidableEq

/-- The Bolt extraction of `RebuildTrie`: `db.(ethdb.HasBolt)` first,
otherwise one level of `db.(ethdb.HasDb)` whose inner database must itself
be `HasBolt`. -/
def getBoltBackend : DbBackend → Bool
  | .hasBolt => true
  | .hasDbOf .hasBolt => true
  | .hasDbOf _ => false
  | .plain => false

/-- Error outcomes of `RebuildTrie`. -/
inductive RebuildError
  | nilDb
  | backendUnavailable
  | historicalNotSupported
  | walkFailed
  | finaliseFailed
deriving Repr, DecidableEq

/-- Observable phases of `RebuildTrie` past planning (planning always runs
first): the cache-bucket creation transaction, the merged walk (the
resolution, feeding the walker callback), and `finaliseRoot` (which invokes
the install hook). -/
inductive ResolveEffect
  | createCacheBucket
  | multiWalkRun
  | finaliseHook
deriving Repr, DecidableEq

/-- `RebuildTrie` from `resolver_stateful_cached.go`: plans, rejects a nil
database, extracts the Bolt backend and rejects any other, creates the
cache bucket, rejects historical resolution inside both the accounts and
storage branches, then walks and finalises.  The walk and finalisation
outcomes are collaborator results passed as flags; the trace records which
phases ran (bucket-creation failure, which would also abort, is not
modelled). -/
def RebuildTrie (s : ResolverState) (db : Option DbBackend) (accounts historical : Bool)
    (walkOk finaliseOk : Bool) :
    Except RebuildError Unit × List ResolveEffect × ResolverState :=
  let planned := PrepareResolveParams s
  match db with
  | none => (.error .nilDb, [], planned.2)
  | some d =>
    if getBoltBackend d = false then (.error .backendUnavailable, [], planned.2)
    else if historical then
      (.error .historicalNotSupported, [.createCacheBucket], planned.2)
    else if walkOk = false then
      (.error .walkFailed, [.createCacheBucket, .multiWalkRun], planned.2)
    else if finaliseOk = false then
      (.error .finaliseFailed, [.createCacheBucket, .multiWalkRun, .finaliseHook], planned.2)
    else
      (.ok (), [.createCacheBucket, .multiWalkRun, .finaliseHook], planned.2)

/-- C9: a non-Bolt database yields the backend-unavailable error before any
phase beyond planning runs (no bucket creation, no walk, no hook); a
historical request yields an error with neither the walk nor the hook
having run. -/
theorem c9_backend_errors (s : ResolverState) (db : Option DbBackend)
    (accounts historical walkOk finaliseOk : Bool) :
    (∀ d, db = some d → getBoltBackend d = false →
      (RebuildTrie s db accounts historical walkOk finaliseOk).1 =
        .error .backendUnavailable ∧
      (RebuildTrie s db accounts historical walkOk finaliseOk).2.1 = []) ∧
    (historical = true →
      (∃ e, (RebuildTrie s db accounts historical walkOk finaliseOk).1 = .error e) ∧
      ResolveEffect.multiWalkRun ∉
        (RebuildTrie s db accounts historical walkOk finaliseOk).2.1 ∧
      ResolveEffect.finaliseHook ∉
        (RebuildTrie s db accounts historical walkOk finaliseOk).2.1) := by
  constructor
  · intro d hdb hbolt
    subst hdb
    simp [RebuildTrie, hbolt]
  · intro hh
    subst hh
    cases db with
    | none => exact ⟨⟨.nilDb, rfl⟩, by simp [RebuildTrie], by simp [RebuildTrie]⟩
    | some d =>
      by_cases hb : getBoltBackend d = false
      · refine ⟨⟨.backendUnavailable, ?_⟩, ?_, ?_⟩ <;> simp [RebuildTrie, hb]
      · refine ⟨⟨.historicalNotSupported, ?_⟩, ?_, ?_⟩ <;> simp [RebuildTrie, hb]

/-- Witness for C9 at a concrete non-Bolt backend. -/
theorem c9_backend_errors_witness :
    (RebuildTrie ⟨0, [], [], [], none, none⟩ (some .plain) true false true true).1 =
      .error .backendUnavailable ∧
    (RebuildTrie ⟨0, [], [], [], none, none⟩ (some .plain) true false true true).2.1 = [] :=
  (c9_backend_errors ⟨0, [], [], [], none, none⟩ (some .plain) true false true true).1
    .plain rfl rfl

/-- `AccountFieldSetNotAccount` must be `0` (the storage-leaf test in the
source is `fieldSet == 0`); the remaining constants are distinct tags whose
concrete values the given sources do not fix. -/
def AccountFieldSetNotAccount : Nat := 0

/-- Tag for an account with empty code hash and empty root. -/
def AccountFieldSetNotContract : Nat := 1

/-- Tag for a contract account. -/
def AccountFieldSetContract : Nat := 2

/-- Tag for a contract account carrying a storage size. -/
def AccountFieldSetContractWithSize : Nat := 3

/-- Modelled from the spec: the outcome of
`accounts.Account.DecodeForStorage`, whose RLP implementation is a
collaborator outside the given sources; the decoder itself is passed to the
walker as a function, `none` meaning a decode error. -/
structure AccDecoded where
  isEmptyCodeHashAndRoot : Bool
  hasStorageSize : Bool
  codeHash : List Nat
  root : List Nat

/-- Payload handed to one `GenStructStep` invocation: cached hash stub,
storage leaf, or account data. -/
inductive GenStructData
  | hashData (h : List Nat)
  | leafData (v : List Nat)
  | accData (fieldSet : Nat)
deriving Repr, DecidableEq

/-- One recorded `GenStructStep` invocation. -/
structure GsCall where
  curr : List Nat
  succ : List Nat
  data : GenStructData
deriving Repr, DecidableEq

/-- Builder-side state of `ResolverStatefulCached` threaded through
`Walker` steps.  `GenStructStep` and the hash builder `hb` are
collaborators outside the given sources; their invocations are recorded in
`gsCalls`, `hbHashes` and `hookCalls` instead of being interpreted. -/
structure BuilderState where
  keyIdx : Nat
  curr : List Nat
  succ : List Nat
  value : List Nat
  fromCache : Bool
  fieldSet : Nat
  currentExt : Nat
  gsCalls : List GsCall
  hbHashes : List (List Nat)
  hookCalls : Nat
deriving Repr, DecidableEq

/-- The `data` selection shared by `finaliseRoot` and `Walker`: cached hash
stub if the previous record came from cache, storage leaf if
`fieldSet == 0`, account data otherwise. -/
def selectData (st : BuilderState) : GenStructData :=
  if st.fromCache then .hashData st.value
  else if st.fieldSet = 0 then .leafData st.value
  else .accData st.fieldSet

/-- `finaliseRoot`: `curr := succ; succ := ε`; one terminal `GenStructStep`
when `curr` is non-empty; then the hook invocation (its `hb.hasRoot` guard
belongs to the unmodelled hash builder, so the attempt is recorded
unconditionally). -/
def finaliseRootModel (st : BuilderState) : BuilderState :=
  let curr' := st.succ
  let st1 : BuilderState := { st with curr := curr', succ := [] }
  let st2 : BuilderState :=
    if curr'.length > 0 then
      { st1 with gsCalls := st1.gsCalls ++ [⟨curr', [], selectData st⟩] }
    else st1
  { st2 with hookCalls := st2.hookCalls + 1 }

/-- The `len(v) > 0` body of `Walker`: shift `succ` into `curr`, rebuild
`succ` from the key nibbles past `skip` (cache keys of storage subtrees
omit the 8-byte incarnation, hence the reduction by 8), append the `16`
terminator for non-cache records, run one `GenStructStep` when `curr` is
non-empty, then remember the record by kind: cached hash value, decoded
account (an RLP failure aborts with the offending value), or storage
leaf. -/
def walkerFeed (decodeAcc : List Nat → Option AccDecoded) (st : BuilderState)
    (isAccount fromCache : Bool) (kAsNibbles v : List Nat) :
    Except (List Nat) BuilderState :=
  let curr' := st.succ
  let skip0 := st.currentExt
  let skip := if fromCache ∧ skip0 > HashLength * 2 then skip0 - 8 else skip0
  let succ' := kAsNibbles.drop skip ++ (if fromCache then [] else [16])
  let stA : BuilderState := { st with curr := curr', succ := succ' }
  let stB : BuilderState :=
    if curr'.length > 0 then
      { stA with gsCalls := stA.gsCalls ++ [⟨curr', succ', selectData stA⟩] }
    else stA
  let stC : BuilderState := { stB with fromCache := fromCache }
  if fromCache then .ok { stC with value := v }
  else if isAccount then
    match decodeAcc v with
    | none => .error v
    | some a =>
      if a.isEmptyCodeHashAndRoot then
        .ok { stC with fieldSet := AccountFieldSetNotContract }
      else
        .ok { stC with
          fieldSet := if a.hasStorageSize then AccountFieldSetContractWithSize
            else AccountFieldSetContract
          hbHashes := stC.hbHashes ++ [a.codeHash, a.root] }
  else .ok { stC with value := v, fieldSet := AccountFieldSetNotAccount }

/-- `Walker` from `resolver_stateful_cached.go` (the shared body of
`WalkerAccounts` and `WalkerStorage`): on a range change finalise the
previous root and switch to the new range's request, then feed the record
when its value is non-empty.  `exts` maps a range index to
`tr.requests[tr.reqIndices[keyIdx]].extResolvePos`. -/
def Walker (exts : List Nat) (decodeAcc : List Nat → Option AccDecoded)
    (st0 : BuilderState) (isAccount fromCache : Bool) (keyIdx : Nat)
    (kAsNibbles v : List Nat) : Except (List Nat) BuilderState :=
  let st :=
    if keyIdx ≠ st0.keyIdx then
      let st1 := finaliseRootModel st0
      { st1 with keyIdx := keyIdx, currentExt := (exts.get? keyIdx).getD 0, curr := [] }
    else st0
  if v.length > 0 then walkerFeed decodeAcc st isAccount fromCache kAsNibbles v
  else .ok st

theorem walkerFeed_succ (decodeAcc : List Nat → Option AccDecoded) (st : BuilderState)
    (isAccount fromCache : Bool) (kAsNibbles v : List Nat) (st' : BuilderState)
    (hok : walkerFeed decodeAcc st isAccount fromCache kAsNibbles v = .ok st') :
    st'.succ =
      kAsNibbles.drop
        (if fromCache = true ∧ st.currentExt > HashLength * 2 then st.currentExt - 8
         else st.currentExt) ++
      (if fromCache then [] else [16]) := by
  unfold walkerFeed at hok
  dsimp only at hok
  split at hok
  · cases hok
    split <;> rfl
  · split at hok
    · split at hok
      · cases hok
      · split at hok
        · cases hok
          split <;> rfl
        · cases hok
          split <;> rfl
    · cases hok
      split <;> rfl

theorem walker_skip_arith (fc : Bool) (e : Nat) :
    (if fc = true ∧ e > HashLength * 2 then e - 8 else e) =
      e - (if fc = true ∧ e > 64 then 8 else 0) := by
  have h64 : HashLength * 2 = 64 := rfl
  rw [h64]
  by_cases hc : fc = true ∧ e > 64
  · rw [if_pos hc, if_pos hc]
  · rw [if_neg hc, if_neg hc]
    omega

/-- C5: on every `Walker` step with a non-empty value, the new `succ` is
`kAsNibbles[skip:]` for `skip = extResolvePos` of the current request
(after any range switch), reduced by 8 exactly when `fromCache` and
`extResolvePos > 64`, with the `0x10` terminator appended iff the record is
not from cache. -/
theorem c5_walker_succ (exts : List Nat) (decodeAcc : List Nat → Option AccDecoded)
    (st0 : BuilderState) (isAccount fromCache : Bool) (keyIdx : Nat)
    (kAsNibbles v : List Nat) (st' : BuilderState)
    (hv : v ≠ [])
    (hok : Walker exts decodeAcc st0 isAccount fromCache keyIdx kAsNibbles v = .ok st') :
    st'.succ =
      kAsNibbles.drop
        ((if keyIdx ≠ st0.keyIdx then (exts.get? keyIdx).getD 0 else st0.currentExt) -
          (if fromCache = true ∧
              (if keyIdx ≠ st0.keyIdx then (exts.get? keyIdx).getD 0 else st0.currentExt) > 64
            then 8 else 0)) ++
      (if fromCache then [] else [16]) := by
  have hvlen : v.length > 0 := List.length_pos.mpr hv
  unfold Walker at hok
  dsimp only at hok
  rw [if_pos hvlen] at hok
  by_cases hki : keyIdx ≠ st0.keyIdx
  · rw [if_pos hki] at hok
    simp only [if_pos hki]
    have h := walkerFeed_succ _ _ _ _ _ _ _ hok
    dsimp only at h
    rw [h, walker_skip_arith]
  · rw [if_neg hki] at hok
    simp only [if_neg hki]
    have h := walkerFeed_succ _ _ _ _ _ _ _ hok
    rw [h, walker_skip_arith]

/-- Witness for C5: a storage leaf at nibbles `[1, 2, 3]` with
`extResolvePos = 0` and `fromCache = false` yields
`succ = [1, 2, 3, 16]`. -/
theorem c5_walker_succ_witness :
    (⟨0, [], [1, 2, 3, 16], [9], false, 0, 0, [], [], 0⟩ : BuilderState).succ =
      [1, 2, 3].drop
        ((if (0 : Nat) ≠ (0 : Nat) then (([] : List Nat).get? 0).getD 0 else 0) -
          (if false = true ∧
              (if (0 : Nat) ≠ (0 : Nat) then (([] : List Nat).get? 0).getD 0 else 0) > 64
            then 8 else 0)) ++
      (if false then [] else [16]) :=
  c5_walker_succ [] (fun _ => none) ⟨0, [], [], [], false, 0, 0, [], [], 0⟩ false false 0
    [1, 2, 3] [9] ⟨0, [], [1, 2, 3, 16], [9], false, 0, 0, [], [], 0⟩
    (by decide) rfl
